import Mathlib

/-!
Shallow embedding of the IMS inventory-reconciliation Streamlit app
(app.py, pages/1_Admin.py, pages/2_User.py) and proofs about the claims
of its specification.

Conventions of the embedding:
* pandas tables become Lean lists of rows; a row is a tuple or structure.
* Machine floats never matter here: every quantity is coerced to `int`
  by the code (`.fillna(0).astype(int)`), so quantities are `Int`.
* The rapidfuzz scorer (`fuzz.WRatio`) is an external library function;
  it is a parameter `scorer : String → String → Nat` of the embedding
  (scores are on the 0..100 scale).
* Python dynamic typing, where a claim depends on it, is made explicit
  with small sum types (`PyCell` for string-vs-tuple comparison in the
  Search tab, `PyObj` for the list-vs-DataFrame accumulator bug in the
  Inventory Overview of app.py).
-/

namespace IMS

/-! ## Identity matcher (app.py lines 55-61)

`process.extractOne(query, choices, scorer=fuzz.WRatio)` with its default
`score_cutoff` returns, for a non-empty choice sequence, the triple
`(choice, score, index)` of the first highest-scoring choice; for an empty
sequence it returns `None`.  `fuzzy_best_match` forwards that whole triple
together with its score. -/

/-- Running best-candidate scan of rapidfuzz extractOne: keeps the first
candidate whose score is strictly greater than the current best. -/
def extractGo (scorer : String → String → Nat) (query : String) :
    List String → Nat → Option (String × Nat × Nat) → Option (String × Nat × Nat)
  | [], _, best => best
  | c :: cs, i, best =>
    match best with
    | none => extractGo scorer query cs (i + 1) (some (c, scorer query c, i))
    | some b =>
      if b.2.1 < scorer query c then
        extractGo scorer query cs (i + 1) (some (c, scorer query c, i))
      else
        extractGo scorer query cs (i + 1) (some b)

/-- Embedding of rapidfuzz process.extractOne with default score cutoff:
best (choice, score, index) of the pool, ties broken by first occurrence. -/
def extractOne (scorer : String → String → Nat) (query : String)
    (choices : List String) : Option (String × Nat × Nat) :=
  extractGo scorer query choices 0 none

/-- Embedding of fuzzy_best_match (app.py lines 55-61): empty query or empty
pool give (None, 0); otherwise the extractor result tuple is returned whole,
paired with its score.  No score threshold is applied anywhere. -/
def fuzzy_best_match (scorer : String → String → Nat) (query : String)
    (choices : List String) : Option (String × Nat × Nat) × Nat :=
  if query = "" ∨ choices = [] then
    (none, 0)
  else
    match extractOne scorer query choices with
    | some m => (some m, m.2.1)
    | none => (none, 0)

/-! ## Record normalizer cells (app.py lines 44-52, 1_Admin.py lines 56-64)

A raw quantity cell is either missing (NaN in pandas), unparsable text
(coerced to NaN by pd.to_numeric with errors="coerce"), or a parsed
number.  The code runs to_numeric(errors="coerce").fillna(0).astype(int). -/

/-- Raw content of a quantity-like cell before normalization. -/
inductive RawCell where
  | missing : RawCell
  | invalid : RawCell
  | num : Int → RawCell
deriving DecidableEq

/-- Embedding of pd.to_numeric(col, errors="coerce") on one cell: missing and
unparsable cells become NaN (modelled as none), numbers survive. -/
def to_numeric_coerce : RawCell → Option Int
  | RawCell.missing => none
  | RawCell.invalid => none
  | RawCell.num n => some n

/-- Embedding of the quantity cast .fillna(0).astype(int) applied after the
coercion: NaN becomes 0, numbers are kept as integers. -/
def normQty (c : RawCell) : Int :=
  (to_numeric_coerce c).getD 0

/-! ## Schema check (1_Admin.py lines 50-55, app.py lines 38-43)

Column names are stripped (df.columns.str.strip()), then every required
column not present in the stripped names is collected; a non-empty missing
list aborts the load (st.error naming the list, return None). -/

/-- Whitespace characters removed by python str.strip. -/
def isPyWS (c : Char) : Bool :=
  c = ' ' ∨ c = '\t' ∨ c = '\n' ∨ c = '\r' ∨ c = '\x0b' ∨ c = '\x0c'

/-- Embedding of str.strip: drop leading and trailing whitespace. -/
def stripStr (s : String) : String :=
  String.mk (((s.data.dropWhile isPyWS).reverse.dropWhile isPyWS).reverse)

/-- Embedding of df.columns.str.strip(). -/
def strippedCols (cols : List String) : List String :=
  cols.map stripStr

/-- Embedding of the list comprehension computing the missing required
columns: every required column absent from the stripped column names. -/
def missingCols (req cols : List String) : List String :=
  req.filter (fun c => decide (c ∉ strippedCols cols))

/-- Raw source table restricted to what the claims need: its raw column
names and the raw cells of its quantity column. -/
structure RawTable where
  cols : List String
  qty : List RawCell

/-- Embedding of load_file / fetch_sheet_df on a raw table: if any required
column is missing after stripping, the load fails carrying the full missing
list (the st.error message, return None); otherwise the quantity column is
normalized cell by cell. -/
def load_file (req : List String) (t : RawTable) : Except (List String) (List Int) :=
  if (missingCols req t.cols).isEmpty then
    Except.ok (t.qty.map normQty)
  else
    Except.error (missingCols req t.cols)

/-! ## Inventory aggregator and multi-source merger (2_User.py lines 83-100)

Per source: df.groupby(key, dropna=False)["Closing Qty"].sum().reset_index()
with the Closing Qty column renamed to a source-qualified name.  Then the
working merge (2_User.py): merged = combined[0]; every further table is
outer-merged on the grouping key; merged.fillna(0); Total_QTY is the row
sum of the quantity columns.

The grouping key is the tuple (Design No, Barcode, Color, Size); it is kept
abstract as a type with decidable equality.  A merged row keeps, for each
source merged so far, an optional quantity (None modelling the NaN an outer
join leaves for an absent key). -/

section Tables

variable {κ : Type} [DecidableEq κ]

/-- Embedding of groupby(key, dropna=False)[qty].sum(): one output row per
distinct key carrying the sum of its group's quantities.  Output row order
is unspecified by the engine, so any enumeration of the distinct keys is a
faithful model. -/
def aggregate (t : List (κ × Int)) : List (κ × Int) :=
  (t.map Prod.fst).dedup.map
    (fun k => (k, ((t.filter (fun r => decide (r.1 = k))).map Prod.snd).sum))

/-- Quantity a single-source aggregated table holds for a key, if any
(the column an outer join would contribute for that key). -/
def lookupKey (t : List (κ × Int)) (k : κ) : Option Int :=
  (t.find? (fun r => decide (r.1 = k))).map Prod.snd

/-- One step of the outer-merge loop: every accumulated row gains the
quantity the new table holds for its key (None when absent), and every key
of the new table unseen so far becomes a fresh row whose w previous source
columns are all None.  w is the number of tables merged so far. -/
def mergeStep (w : Nat) (acc : List (κ × List (Option Int)))
    (t : List (κ × Int)) : List (κ × List (Option Int)) :=
  acc.map (fun r => (r.1, r.2 ++ [lookupKey t r.1])) ++
    (t.filter (fun r => decide (r.1 ∉ acc.map Prod.fst))).map
      (fun r => (r.1, List.replicate w none ++ [some r.2]))

/-- Tail of the merge loop over the remaining tables. -/
def mergeGo (w : Nat) (acc : List (κ × List (Option Int))) :
    List (List (κ × Int)) → List (κ × List (Option Int))
  | [] => acc
  | t :: ts => mergeGo (w + 1) (mergeStep w acc t) ts

/-- Embedding of the merge loop of 2_User.py lines 92-94: the accumulator
starts as the first aggregated table and every further table is
outer-merged onto it. -/
def mergeAll : List (List (κ × Int)) → List (κ × List (Option Int))
  | [] => []
  | t :: ts => mergeGo 1 (t.map (fun r => (r.1, [some r.2]))) ts

/-- Embedding of merged.fillna(0) followed by Total_QTY = row sum of the
quantity columns (2_User.py lines 96-100): each row keeps its key, its
zero-filled source quantities, and their sum. -/
def fillTotal (m : List (κ × List (Option Int))) : List (κ × List Int × Int) :=
  m.map (fun r => (r.1, r.2.map (fun o => o.getD 0), (r.2.map (fun o => o.getD 0)).sum))

/-- Invariant of the merge loop: acc is exactly the outer join of the list
ps of already-processed tables — keys are the union of their keys, without
duplicates, and each row holds per processed table the quantity that table
has for the row's key. -/
def MergedOf (ps : List (List (κ × Int))) (acc : List (κ × List (Option Int))) : Prop :=
  (acc.map Prod.fst).Nodup ∧
    (∀ k, k ∈ acc.map Prod.fst ↔ ∃ p ∈ ps, k ∈ p.map Prod.fst) ∧
    (∀ r ∈ acc, r.2 = ps.map (fun p => lookupKey p r.1))

end Tables

/-! ## Sales velocity classifier (app.py lines 89-100, 2_User.py lines 56-67)

max_date = orders["Created at"].max() (pandas max skips NaT); if it is not
null, cutoff = max_date - timedelta(days=3), recent keeps the orders whose
timestamp compares >= cutoff (NaT compares False), sales are the per-design
sums over recent, and each summed row goes to the reorder list when its
quantity is > 10 and to the not-selling list when it is < 10.

Timestamps are modelled as integers in an arbitrary sub-day resolution;
the window length is 3 days expressed in that same resolution. -/

/-- One normalized order row: design number, quantity, and the Created at
timestamp (none models NaT, the unparsable-date sentinel). -/
structure OrderRow where
  design : String
  qty : Int
  created : Option Int
deriving DecidableEq

/-- Maximum of a list of timestamps, none for the empty list. -/
def listMaxInt : List Int → Option Int
  | [] => none
  | t :: ts =>
    match listMaxInt ts with
    | none => some t
    | some m => some (max t m)

/-- Embedding of orders["Created at"].max(): pandas max skips NaT values
and yields NaT (none) only when no valid timestamp exists. -/
def maxDate (os : List OrderRow) : Option Int :=
  listMaxInt (os.filterMap (fun o => o.created))

/-- Embedding of the window filter: when a valid max date exists, keep the
orders whose timestamp is >= max - w; a NaT timestamp never compares true.
When max is NaT the pd.notnull guard fails and no recent set is built. -/
def recentFilter (w : Int) (os : List OrderRow) : List OrderRow :=
  match maxDate os with
  | none => []
  | some mx =>
    os.filter (fun o =>
      match o.created with
      | some t => decide (mx - w ≤ t)
      | none => false)

/-- Window length used by the code: timedelta(days=3), with timestamps
measured in days. -/
def windowDays : Int := 3

/-- Per-design summed quantities over the last-3-days window
(recent.groupby("Design No")["Quantity"].sum()). -/
def salesOf (w : Int) (os : List OrderRow) : List (String × Int) :=
  aggregate ((recentFilter w os).map (fun o => (o.design, o.qty)))

/-- Embedding of the reorder loop: designs whose summed quantity is
strictly greater than 10. -/
def reorderSet (sales : List (String × Int)) : List String :=
  (sales.filter (fun r => decide (10 < r.2))).map Prod.fst

/-- Embedding of the not-selling loop: designs whose summed quantity is
strictly less than 10. -/
def notSellingSet (sales : List (String × Int)) : List String :=
  (sales.filter (fun r => decide (r.2 < 10))).map Prod.fst

/-! ## Search tab (app.py lines 234-243)

Per source table: if the query is an exact member of the Barcode column,
the Closing Qty of the matching rows is summed; otherwise
fuzzy_best_match(query, df["Design No"].unique()) is called and, when a
match is returned, the rows whose Design No equals the match are summed.
The match is the whole (choice, score, index) tuple, so the pandas
comparison of a string column against it is an elementwise scalar
comparison that never holds.  PyCell makes this dynamic comparison
explicit: a string cell never equals a tuple value. -/

/-- Python value compared against the Design No column in the Search tab:
either a string cell or the extractor's result tuple. -/
inductive PyCell where
  | pstr : String → PyCell
  | ptup : String × Nat × Nat → PyCell
deriving DecidableEq

/-- One normalized inventory row of a source table as the Search tab uses
it: design number, barcode, closing quantity. -/
structure SRow where
  design : String
  barcode : String
  qty : Int
deriving DecidableEq

/-- Embedding of the per-source quantity lookup of the Search tab
(app.py lines 235-242). -/
def searchSourceQty (scorer : String → String → Nat) (query : String)
    (df : List SRow) : Int :=
  if query ∈ df.map (fun r => r.barcode) then
    ((df.filter (fun r => decide (r.barcode = query))).map (fun r => r.qty)).sum
  else
    match (fuzzy_best_match scorer query ((df.map (fun r => r.design)).dedup)).1 with
    | some m =>
      ((df.filter (fun r => decide (PyCell.pstr r.design = PyCell.ptup m))).map
        (fun r => r.qty)).sum
    | none => 0

/-! ## Product classification (2_User.py lines 193-244)

external_df = concat(warehouse, ebo).drop_duplicates() — pandas
drop_duplicates with no subset removes rows equal on EVERY column
(Design No, Barcode, Closing Qty), keeping the first occurrence.  Each
remaining row is then placed in exactly one of listed / nonlisted:
exact design or barcode membership, else extractOne against the shopify
designs with the score-80 cutoff applied by the caller. -/

/-- One external record as selected for classification:
[["Design No", "Barcode", "Closing Qty"]]. -/
structure ExtRec where
  design : String
  barcode : String
  qty : Int
deriving DecidableEq

/-- Left-to-right duplicate scan: a row equal (on every column) to an
already seen row is dropped, otherwise it is kept and remembered. -/
def dropDupGo (seen : List ExtRec) : List ExtRec → List ExtRec
  | [] => []
  | r :: rs =>
    if r ∈ seen then
      dropDupGo seen rs
    else
      r :: dropDupGo (r :: seen) rs

/-- Embedding of DataFrame.drop_duplicates() with no subset: full-row
duplicates collapse to their first occurrence. -/
def dropDuplicates (l : List ExtRec) : List ExtRec :=
  dropDupGo [] l

/-- Classification of one external record (2_User.py lines 208-244): listed
iff its design or barcode appears exactly in the shopify sets, or the
fuzzy extractor returns a match scoring at least 80. -/
def classifyRec (scorer : String → String → Nat)
    (designs barcodes : List String) (r : ExtRec) : Bool :=
  if r.design ∈ designs ∨ r.barcode ∈ barcodes then
    true
  else
    match extractOne scorer r.design designs with
    | some m => decide (80 ≤ m.2.1)
    | none => false

/-- Embedding of the classification loop: the deduplicated external records
split into the listed and non-listed lists, in traversal order. -/
def classify (scorer : String → String → Nat)
    (designs barcodes : List String) (ext : List ExtRec) :
    List ExtRec × List ExtRec :=
  ((dropDuplicates ext).filter (fun r => classifyRec scorer designs barcodes r),
   (dropDuplicates ext).filter (fun r => !classifyRec scorer designs barcodes r))

/-! ## Inventory Overview of app.py (lines 127-134)

merged = dfs initializes the merge accumulator to the PYTHON LIST of
aggregated tables; `merged.merge(...)` inside the loop, and
`merged.columns` / `merged.fillna(0)` after it, are attribute accesses
that raise AttributeError on a list.  PyObj makes the dynamic type of the
accumulator explicit; a pyframe carries the number of source columns
already merged. -/

section Overview

variable {κ : Type} [DecidableEq κ]

/-- Python error raised by the Inventory Overview block of app.py. -/
inductive PyErr where
  | attributeError : PyErr
deriving DecidableEq

/-- Dynamic type of the merge accumulator: the list of aggregated tables
(what the buggy initialization produces) or an actual merged DataFrame. -/
inductive PyObj (κ : Type) where
  | pylist : List (List (κ × Int)) → PyObj κ
  | pyframe : Nat → List (κ × List (Option Int)) → PyObj κ

/-- Embedding of merged.merge(other, on=key, how="outer"): succeeds on a
DataFrame, raises AttributeError on a list. -/
def mergeLoopStep (m : PyObj κ) (other : List (κ × Int)) :
    Except PyErr (PyObj κ) :=
  match m with
  | PyObj.pyframe w t => Except.ok (PyObj.pyframe (w + 1) (mergeStep w t other))
  | PyObj.pylist _ => Except.error PyErr.attributeError

/-- Embedding of the loop `for other in dfs[1:]: merged = merged.merge(...)`. -/
def mergeLoop (m : PyObj κ) : List (List (κ × Int)) → Except PyErr (PyObj κ)
  | [] => Except.ok m
  | t :: ts =>
    match mergeLoopStep m t with
    | Except.ok m2 => mergeLoop m2 ts
    | Except.error e => Except.error e

/-- Embedding of the Inventory Overview merge block of app.py lines
127-136: the accumulator is initialized to the list dfs itself, the loop
merges the tail onto it, and the code after the loop accesses
merged.columns and merged.fillna — attribute accesses that fail unless the
accumulator is a DataFrame. -/
def overviewMerge (dfs : List (List (κ × Int))) :
    Except PyErr (List (κ × List Int × Int)) :=
  match mergeLoop (PyObj.pylist dfs) dfs.tail with
  | Except.ok (PyObj.pyframe _ t) => Except.ok (fillTotal t)
  | Except.ok (PyObj.pylist _) => Except.error PyErr.attributeError
  | Except.error e => Except.error e

end Overview

/-! ## Lemmas about the identity matcher -/

/-- Scan lemma: started from a current best, the scan always returns some
result, the result's score dominates the starting best and every scanned
candidate. -/
theorem extractGo_spec (scorer : String → String → Nat) (query : String) :
    ∀ (cs : List String) (i : Nat) (b0 : String × Nat × Nat),
      ∃ m, extractGo scorer query cs i (some b0) = some m ∧
        b0.2.1 ≤ m.2.1 ∧ ∀ c ∈ cs, scorer query c ≤ m.2.1 := by
  intro cs
  induction cs with
  | nil =>
    intro i b0
    exact ⟨b0, rfl, Nat.le_refl _, by simp⟩
  | cons c cs ih =>
    intro i b0
    by_cases hlt : b0.2.1 < scorer query c
    · obtain ⟨m, hm, hb, hall⟩ := ih (i + 1) (c, scorer query c, i)
      refine ⟨m, ?_, ?_, ?_⟩
      · simp only [extractGo, hlt, if_pos]
        exact hm
      · exact Nat.le_trans (Nat.le_of_lt hlt) hb
      · intro c2 hc2
        rcases List.mem_cons.mp hc2 with h | h
        · subst h; exact hb
        · exact hall c2 h
    · obtain ⟨m, hm, hb, hall⟩ := ih (i + 1) b0
      refine ⟨m, ?_, hb, ?_⟩
      · simp only [extractGo, hlt, if_neg]
        exact hm
      · intro c2 hc2
        rcases List.mem_cons.mp hc2 with h | h
        · subst h
          exact Nat.le_trans (Nat.le_of_not_lt hlt) hb
        · exact hall c2 h

/-- extractOne on a non-empty pool returns a triple whose score dominates
every candidate's score. -/
theorem extractOne_spec (scorer : String → String → Nat) (query : String)
    (cs : List String) (h : cs ≠ []) :
    ∃ m, extractOne scorer query cs = some m ∧ ∀ c ∈ cs, scorer query c ≤ m.2.1 := by
  cases cs with
  | nil => exact absurd rfl h
  | cons c cs =>
    obtain ⟨m, hm, hb, hall⟩ := extractGo_spec scorer query cs 1 (c, scorer query c, 0)
    refine ⟨m, hm, ?_⟩
    intro c2 hc2
    rcases List.mem_cons.mp hc2 with h2 | h2
    · subst h2; exact hb
    · exact hall c2 h2

/-- C1 (amended): for every scorer, non-empty query and non-empty pool,
fuzzy_best_match returns the extractor's best (candidate, score, index)
triple together with its score, whatever that score is — no comparison with
the threshold 80 ever rejects it; in particular a best candidate scoring
79 is still returned. -/
theorem fuzzy_best_match_no_cutoff (scorer : String → String → Nat)
    (query : String) (cs : List String) (hq : query ≠ "") (hcs : cs ≠ []) :
    ∃ m, extractOne scorer query cs = some m ∧
      fuzzy_best_match scorer query cs = (some m, m.2.1) ∧
      ∀ c ∈ cs, scorer query c ≤ m.2.1 := by
  obtain ⟨m, hm, hall⟩ := extractOne_spec scorer query cs hcs
  refine ⟨m, hm, ?_, hall⟩
  have hcond : ¬(query = "" ∨ cs = []) := by
    intro hor
    rcases hor with h | h
    · exact hq h
    · exact hcs h
  simp only [fuzzy_best_match, if_neg hcond, hm]

/-- C1 witness for the amended theorem: concrete scorer with score 79,
below the threshold 80, still yields a returned match. -/
theorem fuzzy_best_match_no_cutoff_witness :
    ("D1" : String) ≠ "" ∧ (["D2"] : List String) ≠ [] ∧
      ∃ m, extractOne (fun _ _ => 79) ("D1") (["D2"]) = some m ∧
        fuzzy_best_match (fun _ _ => 79) ("D1") (["D2"]) = (some m, m.2.1) ∧
        ∀ c ∈ (["D2"] : List String), 79 ≤ m.2.1 :=
  ⟨by decide, by decide, by
    obtain ⟨m, h1, h2, h3⟩ :=
      fuzzy_best_match_no_cutoff (fun _ _ => 79) ("D1") (["D2"]) (by decide) (by decide)
    exact ⟨m, h1, h2, fun c hc => h3 c hc⟩⟩

/-- C1 counterexample to the claim as stated: with every score equal to 79
(strictly below the default threshold 80), the match operation does not
return "no match" — the pool's best candidate is returned with score 79. -/
theorem fuzzy_below_cutoff_counterexample :
    fuzzy_best_match (fun _ _ => 79) ("D1") (["D2"]) = (some (("D2"), 79, 0), 79) ∧
      79 < 80 := by
  constructor
  · rfl
  · decide

/-- C9: the Search tab's per-source lookup.  fuzzy_best_match forwards the
extractor's whole tuple as the match value, and consequently, whenever the
query is not an exact barcode member of the source table, the equality
comparison of the string-valued Design No column against that tuple never
holds and the reported quantity is 0. -/
theorem search_fuzzy_qty_zero (scorer : String → String → Nat) (query : String)
    (df : List SRow) (hq : query ∉ df.map (fun r => r.barcode)) :
    (query ≠ "" →
      (fuzzy_best_match scorer query ((df.map (fun r => r.design)).dedup)).1 =
        extractOne scorer query ((df.map (fun r => r.design)).dedup)) ∧
    searchSourceQty scorer query df = 0 := by
  constructor
  · intro hqne
    by_cases hcs : (df.map (fun r => r.design)).dedup = []
    · rw [hcs]
      have h1 : fuzzy_best_match scorer query [] = (none, 0) := by
        simp [fuzzy_best_match]
      rw [h1]
      rfl
    · have hcond : ¬(query = "" ∨ (df.map (fun r => r.design)).dedup = []) := by
        intro hor
        rcases hor with h | h
        · exact hqne h
        · exact hcs h
      simp only [fuzzy_best_match, if_neg hcond]
      cases hext : extractOne scorer query ((df.map (fun r => r.design)).dedup) with
      | none => simp
      | some m => simp
  · simp only [searchSourceQty, if_neg hq]
    cases hfb : (fuzzy_best_match scorer query ((df.map (fun r => r.design)).dedup)).1 with
    | none => rfl
    | some m =>
      have hfil : df.filter
          (fun r => decide (PyCell.pstr r.design = PyCell.ptup m)) = [] := by
        rw [List.filter_eq_nil_iff]
        intro r hr
        simp
      show ((df.filter
        (fun r => decide (PyCell.pstr r.design = PyCell.ptup m))).map
          (fun r => r.qty)).sum = 0
      rw [hfil]
      rfl

/-- C9 witness: concrete source table with one row, query matching no
barcode; the fuzzy path reports quantity 0. -/
theorem search_fuzzy_qty_zero_witness :
    (("ZZ") ∉ ([SRow.mk ("D1") ("B1") 7].map (fun r => r.barcode))) ∧
    ((("ZZ") : String) ≠ "" →
      (fuzzy_best_match (fun _ _ => 100) ("ZZ")
        (([SRow.mk ("D1") ("B1") 7].map (fun r => r.design)).dedup)).1 =
        extractOne (fun _ _ => 100) ("ZZ")
          (([SRow.mk ("D1") ("B1") 7].map (fun r => r.design)).dedup)) ∧
    searchSourceQty (fun _ _ => 100) ("ZZ") ([SRow.mk ("D1") ("B1") 7]) = 0 := by
  refine ⟨by decide, ?_⟩
  exact search_fuzzy_qty_zero (fun _ _ => 100) ("ZZ") ([SRow.mk ("D1") ("B1") 7]) (by decide)

/-! ## Normalizer theorems -/

/-- C3 counterexample to the claim as stated: a raw quantity cell holding
the parsable value -5 normalizes to -5, a negative integer, so normalized
quantities are not always non-negative. -/
theorem negative_qty_counterexample :
    normQty (RawCell.num (-5)) = -5 ∧ normQty (RawCell.num (-5)) < 0 := by
  decide

/-- C3 (amended): every raw quantity cell resolves to an integer without an
error — missing and unparsable cells resolve to 0, and a parsed numeric
value is kept as is (so a negative raw value stays negative). -/
theorem normQty_parse_failures_zero :
    normQty RawCell.missing = 0 ∧ normQty RawCell.invalid = 0 ∧
      ∀ n : Int, normQty (RawCell.num n) = n := by
  refine ⟨rfl, rfl, ?_⟩
  intro n
  rfl

/-- C7: when any required column is absent from the stripped column names,
the load fails carrying exactly the list of every absent required column,
and no normalized table is produced for that source. -/
theorem schema_missing_fails (req : List String) (t : RawTable)
    (h : ∃ c ∈ req, c ∉ strippedCols t.cols) :
    load_file req t = Except.error (missingCols req t.cols) ∧
      missingCols req t.cols ≠ [] ∧
      (∀ c, c ∈ missingCols req t.cols ↔ c ∈ req ∧ c ∉ strippedCols t.cols) := by
  obtain ⟨c, hc, hcm⟩ := h
  have hmem : c ∈ missingCols req t.cols := by
    simp only [missingCols, List.mem_filter, decide_eq_true_eq]
    exact ⟨hc, hcm⟩
  have hne : missingCols req t.cols ≠ [] := by
    intro hnil
    rw [hnil] at hmem
    exact List.not_mem_nil c hmem
  refine ⟨?_, hne, ?_⟩
  · have hemp : (missingCols req t.cols).isEmpty = false := by
      cases hmc : missingCols req t.cols with
      | nil => exact absurd hmc hne
      | cons a l => rfl
    simp only [load_file, hemp]
    rfl
  · intro c2
    simp only [missingCols, List.mem_filter, decide_eq_true_eq]

/-- C7 witness: a table whose columns hold only a padded Barcode column
fails the Shopify requirement list naming the three other columns. -/
theorem schema_missing_fails_witness :
    (∃ c ∈ (["Barcode", "Design No", "Closing Qty", "CDN link"] : List String),
        c ∉ strippedCols (["  Barcode "])) ∧
      load_file (["Barcode", "Design No", "Closing Qty", "CDN link"])
          (RawTable.mk (["  Barcode "]) []) =
        Except.error (missingCols
          (["Barcode", "Design No", "Closing Qty", "CDN link"]) (["  Barcode "])) ∧
      missingCols (["Barcode", "Design No", "Closing Qty", "CDN link"])
          (["  Barcode "]) ≠ [] ∧
      (∀ c, c ∈ missingCols (["Barcode", "Design No", "Closing Qty", "CDN link"])
          (["  Barcode "]) ↔
        c ∈ (["Barcode", "Design No", "Closing Qty", "CDN link"] : List String) ∧
          c ∉ strippedCols (["  Barcode "])) := by
  refine ⟨by decide, ?_⟩
  exact schema_missing_fails (["Barcode", "Design No", "Closing Qty", "CDN link"])
    (RawTable.mk (["  Barcode "]) []) (by decide)

/-! ## Lemmas about aggregation -/

section AggLemmas

variable {κ : Type} [DecidableEq κ]

/-- Mapping fst over key-indexed pairs recovers the key list. -/
theorem map_fst_pair {α : Type} (l : List α) (f : α → Int) :
    (l.map (fun k => (k, f k))).map Prod.fst = l := by
  induction l with
  | nil => rfl
  | cons a l ih => simp [ih]

/-- Keys of an aggregated table are the deduplicated keys of the input. -/
theorem aggregate_keys (t : List (κ × Int)) :
    (aggregate t).map Prod.fst = (t.map Prod.fst).dedup := by
  rw [aggregate]
  exact map_fst_pair _ _

/-- An aggregated table has no duplicate keys. -/
theorem aggregate_keys_nodup (t : List (κ × Int)) :
    ((aggregate t).map Prod.fst).Nodup := by
  rw [aggregate_keys]
  exact List.nodup_dedup _

omit [DecidableEq κ] in
/-- In a table with no duplicate keys, a key determines its quantity. -/
theorem key_unique {s : List (κ × Int)} (h : (s.map Prod.fst).Nodup)
    {k : κ} {q1 q2 : Int} (h1 : (k, q1) ∈ s) (h2 : (k, q2) ∈ s) : q1 = q2 := by
  induction s with
  | nil => exact absurd h1 (List.not_mem_nil _)
  | cons a s ih =>
    rw [List.map_cons, List.nodup_cons] at h
    rcases List.mem_cons.mp h1 with e1 | e1 <;> rcases List.mem_cons.mp h2 with e2 | e2
    · rw [← e1] at e2
      exact (((Prod.mk.injEq _ _ _ _).mp e2).2).symm
    · exfalso
      apply h.1
      rw [← e1]
      exact List.mem_map.mpr ⟨(k, q2), e2, rfl⟩
    · exfalso
      apply h.1
      rw [← e2]
      exact List.mem_map.mpr ⟨(k, q1), e1, rfl⟩
    · exact ih h.2 e1 e2

/-- C8: aggregating a table that already has one row per key returns the
table unchanged (the model even preserves row order). -/
theorem aggregate_idempotent (t : List (κ × Int))
    (h : (t.map Prod.fst).Nodup) : aggregate t = t := by
  induction t with
  | nil => rfl
  | cons r t ih =>
    rw [List.map_cons, List.nodup_cons] at h
    have hr : r.1 ∉ t.map Prod.fst := h.1
    have hkeys : (r.1 :: t.map Prod.fst).dedup = r.1 :: (t.map Prod.fst).dedup := by
      rw [List.dedup_cons_of_not_mem hr]
    have hded : (t.map Prod.fst).dedup = t.map Prod.fst := List.Nodup.dedup h.2
    simp only [aggregate, List.map_cons, hkeys, hded, List.map_cons]
    rw [List.cons_eq_cons]
    refine ⟨?_, ?_⟩
    · have hfil : t.filter (fun x => decide (x.1 = r.1)) = [] := by
        rw [List.filter_eq_nil_iff]
        intro x hx
        simp only [decide_eq_true_eq]
        intro hx1
        exact hr (List.mem_map.mpr ⟨x, hx, hx1⟩)
      simp [List.filter_cons, hfil]
    · have hcong : ∀ k ∈ t.map Prod.fst,
          (k, (((r :: t).filter (fun x => decide (x.1 = k))).map Prod.snd).sum) =
            (k, ((t.filter (fun x => decide (x.1 = k))).map Prod.snd).sum) := by
        intro k hk
        have hrk : r.1 ≠ k := by
          intro he
          exact hr (he ▸ hk)
        simp [List.filter_cons, hrk]
      rw [List.map_congr_left hcong]
      have := ih h.2
      simp only [aggregate, hded] at this
      exact this

/-- C8 witness: a concrete two-row one-row-per-key table is a fixed point
of aggregation. -/
theorem aggregate_idempotent_witness :
    (([((1 : Nat), (5 : Int)), (2, 3)].map Prod.fst).Nodup) ∧
      aggregate ([((1 : Nat), (5 : Int)), (2, 3)]) = [(1, 5), (2, 3)] :=
  ⟨by decide, aggregate_idempotent (κ := Nat) ([(1, 5), (2, 3)]) (by decide)⟩

end AggLemmas

/-! ## Sales velocity theorems -/

/-- The maximum of a non-empty timestamp list is one of its members. -/
theorem listMaxInt_mem : ∀ {l : List Int} {m : Int}, listMaxInt l = some m → m ∈ l := by
  intro l
  induction l with
  | nil => intro m h; exact absurd h (by simp [listMaxInt])
  | cons t ts ih =>
    intro m h
    cases hts : listMaxInt ts with
    | none =>
      simp only [listMaxInt, hts, Option.some.injEq] at h
      exact h ▸ List.mem_cons_self _ _
    | some m2 =>
      simp only [listMaxInt, hts, Option.some.injEq] at h
      rcases max_choice t m2 with hc | hc
      · rw [← h, hc]
        exact List.mem_cons_self _ _
      · rw [← h, hc]
        exact List.mem_cons_of_mem _ (ih hts)

/-- Only the empty timestamp list has no maximum. -/
theorem listMaxInt_eq_none : ∀ {l : List Int}, listMaxInt l = none → l = [] := by
  intro l h
  cases l with
  | nil => rfl
  | cons t ts =>
    exfalso
    cases hts : listMaxInt ts <;> simp [listMaxInt, hts] at h

/-- The maximum of a timestamp list dominates every member. -/
theorem listMaxInt_ge : ∀ {l : List Int} {m : Int}, listMaxInt l = some m →
    ∀ t ∈ l, t ≤ m := by
  intro l
  induction l with
  | nil => intro m _ t ht; exact absurd ht (List.not_mem_nil t)
  | cons t ts ih =>
    intro m h x hx
    cases hts : listMaxInt ts with
    | none =>
      have : ts = [] := listMaxInt_eq_none hts
      subst this
      simp only [listMaxInt, Option.some.injEq] at h
      rcases List.mem_cons.mp hx with he | he
      · omega
      · exact absurd he (List.not_mem_nil x)
    | some m2 =>
      simp only [listMaxInt, hts, Option.some.injEq] at h
      rcases List.mem_cons.mp hx with he | he
      · subst he
        rw [← h]
        exact le_max_left _ _
      · have := ih hts x he
        rw [← h]
        exact le_trans this (le_max_right _ _)

/-- C5: when the order table has a valid timestamp, the window end is the
maximum timestamp of the table, an order stamped exactly at end minus the
window length is kept by the window filter, and any order stamped strictly
earlier is not. -/
theorem sales_window_boundary (os : List OrderRow) (mx : Int)
    (h : maxDate os = some mx) :
    (∀ o ∈ os, ∀ t : Int, o.created = some t → t ≤ mx) ∧
      (∃ o ∈ os, o.created = some mx) ∧
      (∀ o ∈ os, o.created = some (mx - windowDays) →
        o ∈ recentFilter windowDays os) ∧
      (∀ o ∈ os, ∀ t : Int, o.created = some t → t < mx - windowDays →
        o ∉ recentFilter windowDays os) := by
  refine ⟨?_, ?_, ?_, ?_⟩
  · intro o ho t hc
    exact listMaxInt_ge h t (List.mem_filterMap.mpr ⟨o, ho, hc⟩)
  · obtain ⟨o, ho, hoc⟩ := List.mem_filterMap.mp (listMaxInt_mem h)
    exact ⟨o, ho, hoc⟩
  · intro o ho hoc
    simp only [recentFilter, h]
    refine List.mem_filter.mpr ⟨ho, ?_⟩
    rw [hoc]
    simp
  · intro o ho t hoc hlt hmem
    simp only [recentFilter, h] at hmem
    have := (List.mem_filter.mp hmem).2
    rw [hoc] at this
    simp only [decide_eq_true_eq] at this
    omega

/-- C5 witness: three orders stamped on days 10, 7 and 6; the window end is
10, the order at day 7 = 10 - 3 is inside the window, the one at day 6 is
outside. -/
theorem sales_window_boundary_witness :
    maxDate [OrderRow.mk ("D1") 5 (some 10), OrderRow.mk ("D2") 2 (some 7),
        OrderRow.mk ("D3") 1 (some 6)] = some 10 ∧
      ((∀ o ∈ [OrderRow.mk ("D1") 5 (some 10), OrderRow.mk ("D2") 2 (some 7),
          OrderRow.mk ("D3") 1 (some 6)], ∀ t : Int, o.created = some t → t ≤ 10) ∧
        (∃ o ∈ [OrderRow.mk ("D1") 5 (some 10), OrderRow.mk ("D2") 2 (some 7),
          OrderRow.mk ("D3") 1 (some 6)], o.created = some 10) ∧
        (∀ o ∈ [OrderRow.mk ("D1") 5 (some 10), OrderRow.mk ("D2") 2 (some 7),
            OrderRow.mk ("D3") 1 (some 6)], o.created = some (10 - windowDays) →
          o ∈ recentFilter windowDays [OrderRow.mk ("D1") 5 (some 10),
            OrderRow.mk ("D2") 2 (some 7), OrderRow.mk ("D3") 1 (some 6)]) ∧
        (∀ o ∈ [OrderRow.mk ("D1") 5 (some 10), OrderRow.mk ("D2") 2 (some 7),
            OrderRow.mk ("D3") 1 (some 6)], ∀ t : Int, o.created = some t →
          t < 10 - windowDays →
          o ∉ recentFilter windowDays [OrderRow.mk ("D1") 5 (some 10),
            OrderRow.mk ("D2") 2 (some 7), OrderRow.mk ("D3") 1 (some 6)])) :=
  ⟨by decide, sales_window_boundary
    [OrderRow.mk ("D1") 5 (some 10), OrderRow.mk ("D2") 2 (some 7),
      OrderRow.mk ("D3") 1 (some 6)] 10 (by decide)⟩

/-- C6: a design whose summed in-window quantity equals the threshold 10
lands in neither the reorder list nor the not-selling list; a sum strictly
above 10 lands in reorder, strictly below 10 in not-selling. -/
theorem velocity_threshold_gap (os : List OrderRow) (d : String) (q : Int)
    (h : (d, q) ∈ salesOf windowDays os) :
    (q = 10 → d ∉ reorderSet (salesOf windowDays os) ∧
      d ∉ notSellingSet (salesOf windowDays os)) ∧
      (10 < q → d ∈ reorderSet (salesOf windowDays os)) ∧
      (q < 10 → d ∈ notSellingSet (salesOf windowDays os)) := by
  have hnd : ((salesOf windowDays os).map Prod.fst).Nodup := aggregate_keys_nodup _
  refine ⟨?_, ?_, ?_⟩
  · intro h10
    constructor
    · intro hmem
      obtain ⟨r, hrf, hr1⟩ := List.mem_map.mp hmem
      obtain ⟨hrs, hrp⟩ := List.mem_filter.mp hrf
      simp only [decide_eq_true_eq] at hrp
      have : (d, r.2) ∈ salesOf windowDays os := by
        rw [← hr1]
        exact (Prod.mk.eta) ▸ hrs
      have := key_unique hnd this h
      omega
    · intro hmem
      obtain ⟨r, hrf, hr1⟩ := List.mem_map.mp hmem
      obtain ⟨hrs, hrp⟩ := List.mem_filter.mp hrf
      simp only [decide_eq_true_eq] at hrp
      have : (d, r.2) ∈ salesOf windowDays os := by
        rw [← hr1]
        exact (Prod.mk.eta) ▸ hrs
      have := key_unique hnd this h
      omega
  · intro hgt
    exact List.mem_map.mpr ⟨(d, q),
      List.mem_filter.mpr ⟨h, by simp [hgt]⟩, rfl⟩
  · intro hlt
    exact List.mem_map.mpr ⟨(d, q),
      List.mem_filter.mpr ⟨h, by simp [hlt]⟩, rfl⟩

/-- C6 witness: one design sells exactly 10 inside the window and lands in
neither list. -/
theorem velocity_threshold_gap_witness :
    (("D1"), (10 : Int)) ∈ salesOf windowDays ([OrderRow.mk ("D1") 10 (some 5)]) ∧
      (((10 : Int) = 10 →
        ("D1") ∉ reorderSet (salesOf windowDays ([OrderRow.mk ("D1") 10 (some 5)])) ∧
        ("D1") ∉ notSellingSet (salesOf windowDays ([OrderRow.mk ("D1") 10 (some 5)]))) ∧
      ((10 : Int) < 10 →
        ("D1") ∈ reorderSet (salesOf windowDays ([OrderRow.mk ("D1") 10 (some 5)]))) ∧
      ((10 : Int) < 10 →
        ("D1") ∈ notSellingSet (salesOf windowDays ([OrderRow.mk ("D1") 10 (some 5)])))) :=
  ⟨by decide, velocity_threshold_gap ([OrderRow.mk ("D1") 10 (some 5)]) ("D1") 10 (by decide)⟩

/-! ## Classification theorems -/

/-- Membership in the duplicate scan: a row survives iff it occurs in the
remaining input and was not seen before. -/
theorem dropDupGo_mem : ∀ (l seen : List ExtRec) (x : ExtRec),
    x ∈ dropDupGo seen l ↔ x ∈ l ∧ x ∉ seen := by
  intro l
  induction l with
  | nil =>
    intro seen x
    simp [dropDupGo]
  | cons r rs ih =>
    intro seen x
    by_cases hr : r ∈ seen
    · simp only [dropDupGo, if_pos hr, ih seen x, List.mem_cons]
      constructor
      · intro ⟨hx, hs⟩
        exact ⟨Or.inr hx, hs⟩
      · intro ⟨hx, hs⟩
        rcases hx with he | he
        · exact absurd (he ▸ hr) hs
        · exact ⟨he, hs⟩
    · simp only [dropDupGo, if_neg hr, List.mem_cons, ih (r :: seen) x]
      constructor
      · intro hx
        rcases hx with he | ⟨hin, hns⟩
        · exact ⟨Or.inl he, he ▸ hr⟩
        · exact ⟨Or.inr hin, fun hs => hns (Or.inr hs)⟩
      · intro ⟨hx, hs⟩
        rcases hx with he | he
        · exact Or.inl he
        · by_cases hxr : x = r
          · exact Or.inl hxr
          · exact Or.inr ⟨he, fun hm => by
              rcases hm with h1 | h1
              · exact hxr h1
              · exact hs h1⟩

/-- The duplicate scan never emits the same full row twice. -/
theorem dropDupGo_nodup : ∀ (l seen : List ExtRec), (dropDupGo seen l).Nodup := by
  intro l
  induction l with
  | nil => intro seen; exact List.nodup_nil
  | cons r rs ih =>
    intro seen
    by_cases hr : r ∈ seen
    · simp only [dropDupGo, if_pos hr]
      exact ih seen
    · simp only [dropDupGo, if_neg hr]
      refine List.nodup_cons.mpr ⟨?_, ih (r :: seen)⟩
      intro hmem
      exact ((dropDupGo_mem rs (r :: seen) r).mp hmem).2 (List.mem_cons_self _ _)

/-- drop_duplicates keeps exactly the set of input rows. -/
theorem dropDuplicates_mem (l : List ExtRec) (x : ExtRec) :
    x ∈ dropDuplicates l ↔ x ∈ l := by
  rw [dropDuplicates, dropDupGo_mem]
  simp

/-- drop_duplicates leaves no duplicate full rows. -/
theorem dropDuplicates_nodup (l : List ExtRec) : (dropDuplicates l).Nodup :=
  dropDupGo_nodup l []

/-- Splitting a list by a boolean predicate preserves its length. -/
theorem filter_length_split {α : Type} (p : α → Bool) (l : List α) :
    (l.filter p).length + (l.filter (fun a => !p a)).length = l.length := by
  induction l with
  | nil => rfl
  | cons a l ih =>
    cases h : p a <;> simp [List.filter_cons, h] <;> omega

/-- C4 (amended): every deduplicated external record is classified into
exactly one of the listed and non-listed lists, so the two lengths add up
to the number of deduplicated records; the deduplication collapses rows
identical on ALL of (design, barcode, quantity) — not on the
(design, barcode) pair alone — keeping first occurrences. -/
theorem classification_complete (scorer : String → String → Nat)
    (designs barcodes : List String) (ext : List ExtRec) :
    (classify scorer designs barcodes ext).1.length +
        (classify scorer designs barcodes ext).2.length =
      (dropDuplicates ext).length ∧
      (dropDuplicates ext).Nodup ∧
      (∀ r, r ∈ dropDuplicates ext ↔ r ∈ ext) := by
  refine ⟨?_, dropDuplicates_nodup ext, fun r => dropDuplicates_mem ext r⟩
  exact filter_length_split _ _

/-- C4 counterexample to the claim as stated: the same (design, barcode)
pair coming from two sources with different closing quantities is NOT
collapsed to one record — both rows survive drop_duplicates. -/
theorem dedup_pair_counterexample :
    dropDuplicates [ExtRec.mk ("D1") ("B1") 5, ExtRec.mk ("D1") ("B1") 3] =
        [ExtRec.mk ("D1") ("B1") 5, ExtRec.mk ("D1") ("B1") 3] ∧
      (ExtRec.mk ("D1") ("B1") 5).design = (ExtRec.mk ("D1") ("B1") 3).design ∧
      (ExtRec.mk ("D1") ("B1") 5).barcode = (ExtRec.mk ("D1") ("B1") 3).barcode ∧
      ExtRec.mk ("D1") ("B1") 5 ≠ ExtRec.mk ("D1") ("B1") 3 := by
  decide

/-! ## Inventory Overview of app.py: the list-typed accumulator -/

/-- C10: with at least one loaded source table, the Inventory Overview
merge block of app.py raises AttributeError — the accumulator starts as the
Python list of tables, so either the first loop iteration calls .merge on a
list, or (with a single table) the column check after the loop reads
.columns of a list — and the merged table is never produced. -/
theorem overview_merge_attribute_error {κ : Type} [DecidableEq κ]
    (dfs : List (List (κ × Int))) (h : dfs ≠ []) :
    overviewMerge dfs = Except.error PyErr.attributeError := by
  cases dfs with
  | nil => exact absurd rfl h
  | cons d rest =>
    cases rest with
    | nil => rfl
    | cons t ts => rfl

/-- C10 witness: a single loaded source table already makes the block
fail. -/
theorem overview_merge_attribute_error_witness :
    ([[((1 : Nat), (5 : Int))]] : List (List (Nat × Int))) ≠ [] ∧
      overviewMerge ([[((1 : Nat), (5 : Int))]]) =
        Except.error PyErr.attributeError :=
  ⟨by decide, overview_merge_attribute_error ([[(1, 5)]]) (by decide)⟩

/-! ## Multi-source merger theorems -/

section MergeLemmas

variable {κ : Type} [DecidableEq κ]

omit [DecidableEq κ] in
/-- Mapping fst over rows rebuilt from their own key recovers the keys. -/
theorem map_fst_mk {β γ : Type} (l : List (κ × β)) (f : κ × β → γ) :
    ((l.map (fun r => (r.1, f r))).map Prod.fst) = l.map Prod.fst := by
  induction l with
  | nil => rfl
  | cons a l ih => simp [ih]

/-- A key is absent from a table iff the lookup yields nothing. -/
theorem lookupKey_eq_none (t : List (κ × Int)) (k : κ) :
    lookupKey t k = none ↔ k ∉ t.map Prod.fst := by
  induction t with
  | nil => simp [lookupKey]
  | cons r t ih =>
    by_cases hr : r.1 = k
    · rw [lookupKey, List.find?_cons_of_pos _ (by simp [hr])]
      simp [hr]
    · rw [lookupKey, List.find?_cons_of_neg _ (by simp [hr])]
      have ih2 : ((t.find? (fun r => decide (r.1 = k))).map Prod.snd = none) ↔
          k ∉ t.map Prod.fst := ih
      rw [ih2]
      simp only [List.map_cons, List.mem_cons]
      constructor
      · intro hn hor
        rcases hor with he | he
        · exact hr he.symm
        · exact hn he
      · intro hn he
        exact hn (Or.inr he)

/-- In a table without duplicate keys, a row's quantity is what the lookup
returns for its key. -/
theorem lookupKey_mem {t : List (κ × Int)} (h : (t.map Prod.fst).Nodup)
    {k : κ} {q : Int} (hm : (k, q) ∈ t) : lookupKey t k = some q := by
  induction t with
  | nil => exact absurd hm (List.not_mem_nil _)
  | cons r t ih =>
    rw [List.map_cons, List.nodup_cons] at h
    rcases List.mem_cons.mp hm with he | he
    · have hr : r.1 = k := by rw [← he]
      have hq : r.2 = q := by rw [← he]
      rw [lookupKey, List.find?_cons_of_pos _ (by simp [hr])]
      simp [hq]
    · have hk : k ∈ t.map Prod.fst := List.mem_map.mpr ⟨(k, q), he, rfl⟩
      have hr : r.1 ≠ k := fun he => h.1 (he ▸ hk)
      rw [lookupKey, List.find?_cons_of_neg _ (by simp [hr])]
      exact ih h.2 he

/-- The first aggregated table, rebuilt into one-column merged rows, is the
outer join of the singleton table list. -/
theorem mergedOf_base (t : List (κ × Int)) (h : (t.map Prod.fst).Nodup) :
    MergedOf [t] (t.map (fun r => (r.1, [some r.2]))) := by
  refine ⟨?_, ?_, ?_⟩
  · rw [map_fst_mk]
    exact h
  · intro k
    rw [map_fst_mk]
    simp
  · intro r hr
    obtain ⟨x, hx, hxe⟩ := List.mem_map.mp hr
    have hlk : lookupKey t x.1 = some x.2 := lookupKey_mem h (Prod.mk.eta ▸ hx)
    rw [← hxe]
    simp [hlk]

/-- One outer-merge step preserves the outer-join invariant. -/
theorem mergedOf_step {ps : List (List (κ × Int))}
    {acc : List (κ × List (Option Int))} (hacc : MergedOf ps acc)
    {t : List (κ × Int)} (ht : (t.map Prod.fst).Nodup) :
    MergedOf (ps ++ [t]) (mergeStep ps.length acc t) := by
  obtain ⟨hnd, hiff, hrows⟩ := hacc
  have hkeys : (mergeStep ps.length acc t).map Prod.fst =
      acc.map Prod.fst ++
        (t.filter (fun r => decide (r.1 ∉ acc.map Prod.fst))).map Prod.fst := by
    rw [mergeStep, List.map_append, map_fst_mk, map_fst_mk]
  have hnewmem : ∀ k,
      k ∈ (t.filter (fun r => decide (r.1 ∉ acc.map Prod.fst))).map Prod.fst ↔
        k ∈ t.map Prod.fst ∧ k ∉ acc.map Prod.fst := by
    intro k
    constructor
    · intro hk
      obtain ⟨x, hx, hxe⟩ := List.mem_map.mp hk
      obtain ⟨hxt, hxp⟩ := List.mem_filter.mp hx
      simp only [decide_eq_true_eq] at hxp
      exact ⟨hxe ▸ List.mem_map.mpr ⟨x, hxt, rfl⟩, hxe ▸ hxp⟩
    · intro ⟨hk, hkn⟩
      obtain ⟨x, hx, hxe⟩ := List.mem_map.mp hk
      refine List.mem_map.mpr ⟨x, List.mem_filter.mpr ⟨hx, ?_⟩, hxe⟩
      simp only [decide_eq_true_eq]
      rw [hxe]
      exact hkn
  refine ⟨?_, ?_, ?_⟩
  · rw [hkeys, List.nodup_append]
    refine ⟨hnd, ?_, ?_⟩
    · exact List.Nodup.sublist (List.Sublist.map _ (List.filter_sublist t)) ht
    · intro k hk1 hk2
      exact ((hnewmem k).mp hk2).2 hk1
  · intro k
    rw [hkeys, List.mem_append, hnewmem k, hiff k]
    constructor
    · intro hor
      rcases hor with hin | ⟨hin, _⟩
      · obtain ⟨p, hp, hkp⟩ := hin
        exact ⟨p, List.mem_append.mpr (Or.inl hp), hkp⟩
      · exact ⟨t, List.mem_append.mpr (Or.inr (List.mem_singleton.mpr rfl)), hin⟩
    · intro ⟨p, hp, hkp⟩
      rcases List.mem_append.mp hp with hps | hpt
      · exact Or.inl ⟨p, hps, hkp⟩
      · rw [List.mem_singleton.mp hpt] at hkp
        by_cases hacc2 : ∃ p ∈ ps, k ∈ List.map Prod.fst p
        · exact Or.inl hacc2
        · exact Or.inr ⟨hkp, hacc2⟩
  · intro r hr
    rcases List.mem_append.mp hr with hleft | hright
    · obtain ⟨x, hx, hxe⟩ := List.mem_map.mp hleft
      rw [← hxe]
      simp only [List.map_append, List.map_cons, List.map_nil]
      rw [hrows x hx]
    · obtain ⟨x, hx, hxe⟩ := List.mem_map.mp hright
      obtain ⟨hxt, hxp⟩ := List.mem_filter.mp hx
      simp only [decide_eq_true_eq] at hxp
      have hnone : ∀ p ∈ ps, lookupKey p x.1 = none := by
        intro p hp
        rw [lookupKey_eq_none]
        intro hkp
        exact hxp ((hiff x.1).mpr ⟨p, hp, hkp⟩)
      have hrep : ps.map (fun p => lookupKey p x.1) =
          List.replicate ps.length (none : Option Int) := by
        rw [List.eq_replicate_iff]
        refine ⟨by rw [List.length_map], ?_⟩
        intro b hb
        obtain ⟨p, hp, hpe⟩ := List.mem_map.mp hb
        rw [← hpe]
        exact hnone p hp
      have hlk : lookupKey t x.1 = some x.2 := lookupKey_mem ht (Prod.mk.eta ▸ hxt)
      rw [← hxe]
      simp only [List.map_append, List.map_cons, List.map_nil, hrep, hlk]

/-- The whole merge loop maintains the outer-join invariant. -/
theorem mergedOf_go : ∀ (ts : List (List (κ × Int))) (ps : List (List (κ × Int)))
    (acc : List (κ × List (Option Int))),
    (∀ t ∈ ts, (t.map Prod.fst).Nodup) → MergedOf ps acc →
    MergedOf (ps ++ ts) (mergeGo ps.length acc ts) := by
  intro ts
  induction ts with
  | nil =>
    intro ps acc _ hacc
    simpa using hacc
  | cons t ts ih =>
    intro ps acc hall hacc
    have hstep := mergedOf_step hacc (hall t (List.mem_cons_self _ _))
    have hrec := ih (ps ++ [t]) (mergeStep ps.length acc t)
      (fun x hx => hall x (List.mem_cons_of_mem _ hx)) hstep
    have hlen : (ps ++ [t]).length = ps.length + 1 := by
      simp
    rw [hlen] at hrec
    have hassoc : (ps ++ [t]) ++ ts = ps ++ (t :: ts) := by
      simp
    rw [hassoc] at hrec
    exact hrec

/-- C2: merging any non-degenerate list of per-source aggregated tables
(each one row per key) yields a table with exactly one row per key present
in at least one source, with absent source quantities filled by 0 and
Total_QTY the sum of the per-source looked-up quantities. -/
theorem merge_outer_join_complete (ts : List (List (κ × Int)))
    (h : ∀ t ∈ ts, (t.map Prod.fst).Nodup) :
    ((mergeAll ts).map Prod.fst).Nodup ∧
      (∀ k, k ∈ (mergeAll ts).map Prod.fst ↔ ∃ t ∈ ts, k ∈ t.map Prod.fst) ∧
      (∀ r ∈ fillTotal (mergeAll ts),
        r.2.1 = ts.map (fun t => (lookupKey t r.1).getD 0) ∧
        r.2.2 = (ts.map (fun t => (lookupKey t r.1).getD 0)).sum) := by
  cases ts with
  | nil =>
    refine ⟨by simp [mergeAll], by simp [mergeAll], ?_⟩
    intro r hr
    exact absurd hr (by simp [mergeAll, fillTotal])
  | cons t ts =>
    have hbase := mergedOf_base t (h t (List.mem_cons_self _ _))
    have hgo := mergedOf_go ts [t] (t.map (fun r => (r.1, [some r.2])))
      (fun x hx => h x (List.mem_cons_of_mem _ hx)) hbase
    have hlen : ([t] : List (List (κ × Int))).length = 1 := rfl
    rw [hlen, List.singleton_append] at hgo
    obtain ⟨hnd, hiff, hrows⟩ := hgo
    refine ⟨?_, ?_, ?_⟩
    · exact hnd
    · exact hiff
    · intro r hr
      obtain ⟨x, hx, hxe⟩ := List.mem_map.mp hr
      have hx2 := hrows x hx
      rw [← hxe]
      simp only []
      rw [hx2, List.map_map]
      constructor
      · rfl
      · rfl

/-- C2 witness: three concrete aggregated tables with overlapping keys
merge into one row per key with zero-filled absences and correct totals. -/
theorem merge_outer_join_complete_witness :
    (∀ t ∈ ([[((1 : Nat), (5 : Int))], [(1, 3)], [(2, 7)]] :
        List (List (Nat × Int))), (t.map Prod.fst).Nodup) ∧
      (((mergeAll ([[((1 : Nat), (5 : Int))], [(1, 3)], [(2, 7)]])).map
          Prod.fst).Nodup ∧
        (∀ k, k ∈ (mergeAll ([[((1 : Nat), (5 : Int))], [(1, 3)], [(2, 7)]])).map
            Prod.fst ↔
          ∃ t ∈ ([[((1 : Nat), (5 : Int))], [(1, 3)], [(2, 7)]] :
            List (List (Nat × Int))), k ∈ t.map Prod.fst) ∧
        (∀ r ∈ fillTotal (mergeAll ([[((1 : Nat), (5 : Int))], [(1, 3)], [(2, 7)]])),
          r.2.1 = ([[((1 : Nat), (5 : Int))], [(1, 3)], [(2, 7)]] :
            List (List (Nat × Int))).map (fun t => (lookupKey t r.1).getD 0) ∧
          r.2.2 = (([[((1 : Nat), (5 : Int))], [(1, 3)], [(2, 7)]] :
            List (List (Nat × Int))).map (fun t => (lookupKey t r.1).getD 0)).sum)) :=
  ⟨by decide, merge_outer_join_complete ([[(1, 5)], [(1, 3)], [(2, 7)]]) (by decide)⟩

end MergeLemmas

end IMS
